import Mathlib

/-!
Verification of the obsidian-llm ingestion pipeline against its
natural-language specification.  The TypeScript sources are shallowly
embedded: pure functions become Lean functions, stateful code becomes
explicit state passing, and external services (the embedding backend, the
vectra index, the filesystem, the crypto library) become oracle parameters
or explicit state values.  All definitions are structurally recursive so
that concrete runs evaluate by `decide`/`rfl`.
-/

namespace ObsidianLLM

/-! ## String primitives

The built-in `String.splitOn` does not reduce in the kernel, so the JS
string primitives used by the sources are re-implemented structurally over
`String.data` (the underlying character list). -/

/-- Split a character list on a single separator character
(JS `s.split(c)` for a one-character separator). -/
def splitOnCharL (sep : Char) : List Char → List (List Char)
  | [] => [[]]
  | c :: cs =>
    let r := splitOnCharL sep cs
    if c = sep then [] :: r
    else (c :: r.headD []) :: r.tail

/-- Fuel-indexed worker for multi-character split; `fuel` bounds the number
of characters consumed, so `fuel = s.length` is always enough. -/
def splitOnAux (sep : List Char) : Nat → List Char → List (List Char)
  | _, [] => [[]]
  | 0, l => [l]
  | fuel + 1, c :: cs =>
    if sep.isPrefixOf (c :: cs) then
      [] :: splitOnAux sep fuel ((c :: cs).drop sep.length)
    else
      match splitOnAux sep fuel cs with
      | [] => [[c]]
      | h :: t => (c :: h) :: t

/-- JS `s.split(sep)` for a non-empty string separator. -/
def splitOnL (sep l : List Char) : List (List Char) :=
  if sep.isEmpty then [l] else splitOnAux sep l.length l

/-- JS `s.split(sep)` on `String`s. -/
def strSplit (s sep : String) : List String :=
  (splitOnL sep.data s.data).map String.mk

/-- JS `s.replace(pat, rep)` with a string pattern: replace the first
occurrence only (identity when `pat` does not occur). -/
def replaceFirstL (pat rep : List Char) : List Char → List Char
  | [] => []
  | c :: cs =>
    if pat.isPrefixOf (c :: cs) then rep ++ (c :: cs).drop pat.length
    else c :: replaceFirstL pat rep cs

/-- JS `s.replace(pat, rep)` on `String`s (`pat` non-empty in all uses). -/
def strReplaceFirst (s pat rep : String) : String :=
  String.mk (replaceFirstL pat.data rep.data s.data)

/-- JS `s.startsWith(pre)`. -/
def strStartsWith (s pre : String) : Bool :=
  pre.data.isPrefixOf s.data

/-- JS `s.includes(sub)` (substring containment). -/
def containsSubL (pat : List Char) : List Char → Bool
  | [] => pat.isEmpty
  | c :: cs => pat.isPrefixOf (c :: cs) || containsSubL pat cs

/-- JS `s.includes(sub)` on `String`s. -/
def strContains (s sub : String) : Bool :=
  containsSubL sub.data s.data

/-- JS `arr.join(sep)`. -/
def strJoin (sep : String) : List String → String
  | [] => ""
  | [s] => s
  | s :: rest => s ++ sep ++ strJoin sep rest

/-- Decimal digits of a natural number, most significant first
(fuel-indexed so it reduces in the kernel). -/
def natDigitsAux : Nat → Nat → List Char
  | 0, _ => []
  | fuel + 1, n =>
    if n < 10 then [Char.ofNat (48 + n)]
    else natDigitsAux fuel (n / 10) ++ [Char.ofNat (48 + n % 10)]

/-- JS number-to-string coercion for the non-negative integers used as
chunk indices (template literal `${index}`). -/
def natToStr (n : Nat) : String :=
  String.mk (natDigitsAux (n + 1) n)

end ObsidianLLM

namespace ObsidianLLM

/-! ## Chunker (`src/chunker.ts`, `chunkFile`)

`chunkFile` splits a markdown document on `"\n"`, folds over the lines
maintaining a heading stack (a JS array: push/pop at the end) and a list of
chunk bodies, and finally drops empty chunk strings (`filter(Boolean)`). -/

/-- Length of the leading run of `#` characters
(JS `line.match(/^#+/)?.[0].length ?? 0`). -/
def headingLevel (line : String) : Nat :=
  (line.data.takeWhile (· = '#')).length

/-- The breadcrumb prefix: `filePath.split("vault/").pop()?.split("/")
.map(part => part.replace(".md", "")).join(" > ")`. -/
def fileParts (filePath : String) : String :=
  strJoin " > "
    (((strSplit filePath "vault/").getLastD "").data
      |> splitOnCharL '/'
      |>.map (fun part => String.mk (replaceFirstL ".md".data [] part)))

/-- The `while (lastHeadingLevel >= headingLevel) pop()` loop: the stack's
top is the last array element, so drop from the reversed list. -/
def popHeadings (level : Nat) (stack : List String) : List String :=
  ((stack.reverse).dropWhile (fun h => level ≤ headingLevel h)).reverse

/-- `acc.chunks[acc.chunks.length - 1] += s` on a JS array. -/
def appendToLast (s : String) : List String → List String
  | [] => []
  | [c] => [c ++ s]
  | c :: cs => c :: appendToLast s cs

structure ChunkAcc where
  headingStack : List String
  chunks : List String
deriving Repr, DecidableEq

/-- One step of the `reduce` in `chunkFile`. -/
def chunkStep (fp : String) (acc : ChunkAcc) (line : String) : ChunkAcc :=
  let acc := if acc.chunks.isEmpty then { acc with chunks := [""] } else acc
  if strStartsWith line "#" then
    let level := headingLevel line
    let stack := popHeadings level acc.headingStack ++ [line]
    { headingStack := stack,
      chunks := acc.chunks ++ [fp ++ "\n" ++ strJoin "\n" stack] }
  else
    { acc with chunks := appendToLast ("\n" ++ line) acc.chunks }

/-- `chunkFile` from `src/chunker.ts`: split on newlines, fold, drop empty
chunks. -/
def chunkFile (filePath fileContent : String) : List String :=
  (((strSplit fileContent "\n").foldl (chunkStep (fileParts filePath))
      ⟨[], []⟩).chunks).filter (fun c => c ≠ "")

/-- The heading lines recorded inside a chunk body (the heading stack is
joined into the body one heading per line). -/
def headingLines (chunk : String) : List String :=
  (strSplit chunk "\n").filter (fun l => strStartsWith l "#")

/-! ## Embedder (`src/chunker.ts`, `embedChunks`)

The backend (rate limiter admission + `retryWithBackoff`-wrapped fetch
with model fallback) is collapsed into an oracle giving, for each
recursion depth (`pass`) and chunk text, either the embedding that pass
produces for the chunk or `none` when every model attempt fails.
`API_CONFIG.fallbackModels` is `[]`, so each pass makes exactly one
(backoff-retried) attempt per chunk. -/

/-- An embedding paired with its source text — the `{embedding, text}`
record pushed into `results`. -/
structure EmbeddedChunk where
  embedding : List Int
  text : String
deriving Repr, DecidableEq

/-- One pass of the per-chunk loop in `embedChunks`: chunks are tried in
order; successes are pushed onto `results` in input order, failures onto
`failedChunks` in input order. -/
def embedPass (o : String → Option (List Int)) :
    List String → List EmbeddedChunk × List String
  | [] => ([], [])
  | c :: cs =>
    let r := embedPass o cs
    match o c with
    | some e => (⟨e, c⟩ :: r.1, r.2)
    | none => (r.1, c :: r.2)

/-- `embedChunks` from `src/chunker.ts`.  The self-call
`embedChunks(failedChunks)` is modelled with explicit `fuel` bounding the
recursion depth: a result of `none` means the recursion has not returned
within `fuel` nested calls (the source has no such bound). -/
def embedChunksFuel (o : Nat → String → Option (List Int)) :
    Nat → Nat → List String → Option (List EmbeddedChunk)
  | _, 0, _ => none
  | pass, fuel + 1, chunks =>
    if chunks.isEmpty then some []
    else
      let pr := embedPass (o pass) chunks
      if pr.2.isEmpty then some pr.1
      else (embedChunksFuel o (pass + 1) fuel pr.2).map (fun retry => pr.1 ++ retry)

/-- Backend on which every attempt of every pass fails. -/
def failAllOracle : Nat → String → Option (List Int) := fun _ _ => none

/-- Backend on which every chunk fails in passes 0 and 1 and succeeds from
pass 2 on. -/
def failTwiceOracle : Nat → String → Option (List Int) := fun pass _ =>
  if pass < 2 then none else some [1]

/-- Backend on which chunk `"b"` fails the first pass and succeeds on
retry, while every other chunk succeeds immediately. -/
def failBOracle : Nat → String → Option (List Int) := fun pass c =>
  if c = "b" then (if pass = 0 then none else some [2]) else some [1]

/-- Backend on which chunk `"a"` fails the first pass and succeeds on
retry, while every other chunk succeeds immediately. -/
def failAOracle : Nat → String → Option (List Int) := fun pass c =>
  if c = "a" then (if pass = 0 then none else some [1]) else some [2]

/-! ## Vector store (`src/vectorStore.ts` = `src/unnamed/part_002`)

The vectra `LocalIndex` is modelled as a list of records; `deleteItem`
removes the record with exactly the given id, `insertItem` appends,
`getItem` looks up by id — the narrow external contract of §6. -/

/-- A stored metadata value (the program stores strings; orphan cleanup
reads a numeric `modifiedTime`). -/
inductive MetaValue where
  | str (s : String)
  | num (n : Int)
deriving Repr, DecidableEq

/-- Field lookup on a metadata bag (JS property access). -/
def metaLookup (m : List (String × MetaValue)) (k : String) : Option MetaValue :=
  (m.find? (fun p => p.1 == k)).map (fun p => p.2)

structure VectorRecord where
  id : String
  vector : List Int
  metadata : List (String × MetaValue)
deriving Repr, DecidableEq

/-- `LocalIndex.deleteItem`: remove the record with exactly this id. -/
def deleteItem (store : List VectorRecord) (id : String) : List VectorRecord :=
  store.filter (fun r => r.id != id)

/-- `LocalIndex.insertItem`. -/
def insertItem (store : List VectorRecord) (r : VectorRecord) : List VectorRecord :=
  store ++ [r]

/-- `LocalIndex.getItem`. -/
def getItem (store : List VectorRecord) (id : String) : Option VectorRecord :=
  store.find? (fun r => r.id == id)

/-- `normalizePathForStorage`:
`path.replace("vault/", "").replace(/[\\/:]/g, "_")`. -/
def normalizePathForStorage (path : String) : String :=
  String.mk ((replaceFirstL "vault/".data [] path.data).map
    (fun c => if c = '\\' ∨ c = '/' ∨ c = ':' then '_' else c))

/-- The insertion loop of `storeChunks`: for each `(index, chunk)` build
`chunkId = relative(cwd, filePath) + "::" + index` (the external
`path.relative` is the oracle `rel`), write the text side-file, insert a
record whose metadata is the single field `documentId`, and collect the
generated ids. -/
def storeChunksInsert (rel : String → String) (filePath : String) :
    List EmbeddedChunk → Nat → List VectorRecord → List VectorRecord × List String
  | [], _, store => (store, [])
  | chunk :: rest, index, store =>
    let chunkId := rel filePath ++ "::" ++ natToStr index
    let sanitizedPath := normalizePathForStorage chunkId
    let vectorData : VectorRecord :=
      ⟨chunkId, chunk.embedding,
        [("documentId", MetaValue.str ("text_files/" ++ sanitizedPath))]⟩
    let store' :=
      match getItem store chunkId with
      | some _ => insertItem (deleteItem store chunkId) vectorData
      | none => insertItem store vectorData
    let r := storeChunksInsert rel filePath rest (index + 1) store'
    (r.1, chunkId :: r.2)

/-- `storeChunks` (state-passing core): delete every existing record whose
id starts with `filePath`, then run the insertion loop; returns the new
store and the generated id list. -/
def storeChunks (rel : String → String) (filePath : String)
    (embeddedChunks : List EmbeddedChunk) (store : List VectorRecord) :
    List VectorRecord × List String :=
  let existingIds := (store.filter (fun v => strStartsWith v.id filePath)).map (fun v => v.id)
  let store' := existingIds.foldl deleteItem store
  storeChunksInsert rel filePath embeddedChunks 0 store'

/-- `VECTOR_STORE_CONFIG.maxOrphanedAge` (1 day in milliseconds). -/
def maxOrphanedAge : Int := 1 * 24 * 60 * 60 * 1000

/-- JS `id.split("::")[0]` — the part of a record id before the
delimiter. -/
def ownerPath (id : String) : String :=
  String.mk ((splitOnL "::".data id.data).headD [])

/-- The per-record decision of `cleanupOrphanedVectors` (`true` =
delete): ids present in the cache are kept; otherwise the owning file
existing on disk (`access`) keeps the record; otherwise the record is
deleted iff `now - (metadata.modifiedTime ?? now)` reaches
`maxOrphanedAge`.  (Records written by this program never carry a
non-numeric `modifiedTime`, cf. `storeChunks`.) -/
def cleanupDecision (cacheIds : List String) (fileExists : String → Bool)
    (now : Int) (v : VectorRecord) : Bool :=
  if cacheIds.contains v.id then false
  else if fileExists (ownerPath v.id) then false
  else
    let modifiedTime :=
      match metaLookup v.metadata "modifiedTime" with
      | some (MetaValue.num t) => t
      | _ => now
    let vectorAge := now - modifiedTime
    if vectorAge < maxOrphanedAge then false else true

/-- Net effect of `cleanupOrphanedVectors` on the store: every record
whose decision is `delete` is removed via `deleteItem`. -/
def cleanupOrphanedVectors (cacheIds : List String) (fileExists : String → Bool)
    (now : Int) (store : List VectorRecord) : List VectorRecord :=
  store.filter (fun v => !cleanupDecision cacheIds fileExists now v)

/-! ## Change cache (`lib/cache.ts` = second half of `src/lib/rateLimiter.ts`) -/

structure CacheEntry where
  contentHash : String
  vectorIds : List String
  modifiedTime : Int
deriving Repr, DecidableEq

/-- A JS object keyed by path: an insertion-ordered association list. -/
abbrev Cache := List (String × CacheEntry)

/-- JS `cache[filePath]` read. -/
def cacheLookup (cache : Cache) (k : String) : Option CacheEntry :=
  (cache.find? (fun p => p.1 == k)).map (fun p => p.2)

/-- JS `cache[filePath] = entry`: update in place when present, append
otherwise. -/
def cacheSet : Cache → String → CacheEntry → Cache
  | [], k, v => [(k, v)]
  | (k', v') :: rest, k, v =>
    if k' = k then (k, v) :: rest else (k', v') :: cacheSet rest k v

/-! ## File processing (`src/fileProcessing.ts` = `src/unnamed/part_001`) -/

/-- `deleteFile`: split the loaded cache into entries whose key starts
with `filePath` and the rest, call `globalVectorStore.deleteItem` with
each *removed cache key*, and return the cache that `saveCache` then
persists together with the resulting store. -/
def deleteFile (filePath : String) (cache : Cache) (store : List VectorRecord) :
    Cache × List VectorRecord :=
  let updated := cache.filter (fun e => !(strStartsWith e.1 filePath))
  let deleted := cache.filter (fun e => strStartsWith e.1 filePath)
  (updated, (deleted.map (fun e => e.1)).foldl deleteItem store)

/-- Observable outcome of one `processFile` call.  `embedCalls` counts the
chunks submitted to `embedChunks` (zero when the function returns before
embedding); `storeChunksCalls` counts invocations of `storeChunks` (the
only vector-store mutation in this path). -/
structure ProcessOutcome where
  embedCalls : Nat
  storeChunksCalls : Nat
  cache : Cache
  cacheSaved : Bool
  store : List VectorRecord
deriving Repr, DecidableEq

/-- The fall-through branch of `processFile`: chunk, embed (the awaited
result of `embedChunks` is the oracle `embedder`), store, write the fresh
cache record, save. -/
def processFileFull (embedder : List String → List EmbeddedChunk)
    (rel : String → String) (filePath : String) (mtime : Int)
    (content contentHash : String) (cache : Cache)
    (store : List VectorRecord) : ProcessOutcome :=
  let chunks := chunkFile filePath content
  let embeddings := embedder chunks
  let r := storeChunks rel filePath embeddings store
  ⟨chunks.length, 1,
    cacheSet cache filePath ⟨contentHash, r.2, mtime⟩, true, r.1⟩

/-- `processFile`: with `contentHash = hash(content)` (the external
`crypto` sha256 is the oracle `hash`), skip when the cached record matches
both hash and modification time, update only `modifiedTime` when the hash
alone matches, otherwise run the full pipeline. -/
def processFile (hash : String → String)
    (embedder : List String → List EmbeddedChunk) (rel : String → String)
    (filePath : String) (mtime : Int) (content : String) (cache : Cache)
    (store : List VectorRecord) : ProcessOutcome :=
  let contentHash := hash content
  match cacheLookup cache filePath with
  | some cachedFile =>
    if cachedFile.modifiedTime = mtime ∧ cachedFile.contentHash = contentHash then
      ⟨0, 0, cache, false, store⟩
    else if cachedFile.contentHash = contentHash then
      ⟨0, 0, cacheSet cache filePath { cachedFile with modifiedTime := mtime },
        true, store⟩
    else
      processFileFull embedder rel filePath mtime content contentHash cache store
  | none =>
    processFileFull embedder rel filePath mtime content contentHash cache store

/-! ## Ingestion queue (`handleFileEvent` in `src/unnamed/part_001`)

Cooperative small-step semantics.  `running` is the event inside the
`try` block (`isProcessingFile = running.isSome`); `handoff` holds
dequeued entries whose `setImmediate(() => handleFileEvent(...))`
callback has not yet run — the window in the `finally` block between
`isProcessingFile = false` / `fileQueue.shift()` and the deferred
re-dispatch, during which the watcher may deliver new events. -/

structure QEntry where
  event : String
  filePath : String
deriving Repr, DecidableEq

structure QueueState where
  running : Option QEntry
  queue : List QEntry
  disk : List QEntry
  handoff : List QEntry
  started : List QEntry
  done : List QEntry
deriving Repr, DecidableEq

inductive QAct where
  | arrive (e : QEntry)
  | complete
  | dispatch
deriving Repr, DecidableEq

/-- The synchronous prefix of `handleFileEvent`: while busy, push the
event and rewrite the durable queue file; otherwise set the flag and
start processing. -/
def handleArrival (s : QueueState) (e : QEntry) : QueueState :=
  if s.running.isSome then
    { s with queue := s.queue ++ [e], disk := s.queue ++ [e] }
  else
    { s with running := some e, started := s.started ++ [e] }

/-- One scheduler step.  `complete` is the `finally` block: clear the
flag, shift the queue head, rewrite the durable queue, and schedule the
re-dispatch of the head; `dispatch` runs the oldest pending `setImmediate`
callback, which re-enters `handleFileEvent`. -/
def qstep (s : QueueState) : QAct → QueueState
  | .arrive e => handleArrival s e
  | .complete =>
    match s.running with
    | none => s
    | some e =>
      let s' := { s with running := none, done := s.done ++ [e] }
      match s'.queue with
      | [] => s'
      | next :: rest =>
        { s' with queue := rest, disk := rest, handoff := s'.handoff ++ [next] }
  | .dispatch =>
    match s.handoff with
    | [] => s
    | e :: rest => handleArrival { s with handoff := rest } e

def qrun (s : QueueState) : List QAct → QueueState
  | [] => s
  | a :: acts => qrun (qstep s a) acts

def qinit : QueueState := ⟨none, [], [], [], [], []⟩

/-- The watcher events delivered by a schedule, in order. -/
def arrivalsOf : List QAct → List QEntry
  | [] => []
  | .arrive e :: acts => e :: arrivalsOf acts
  | _ :: acts => arrivalsOf acts

/-- A schedule is quiet when every arrival happens either while an event
is in flight or while the system is fully idle — never inside a dequeue
handoff window. -/
def quietActs (s : QueueState) : List QAct → Bool
  | [] => true
  | a :: acts =>
    (match a with
     | .arrive _ => s.running.isSome || (s.handoff.isEmpty && s.queue.isEmpty)
     | _ => true) && quietActs (qstep s a) acts

/-- Queue events used in the FIFO scenarios. -/
def qe0 : QEntry := ⟨"add", "e0"⟩
def qex : QEntry := ⟨"add", "x"⟩
def qey : QEntry := ⟨"add", "y"⟩
def qez : QEntry := ⟨"add", "z"⟩

/-- A schedule in which `y` arrives inside the handoff window opened by
the completion of `e0` and `z` arrives while `y` is in flight. -/
def racySchedule : List QAct :=
  [.arrive qe0, .arrive qex, .complete, .arrive qey, .arrive qez,
   .dispatch, .complete, .dispatch, .complete, .dispatch, .complete]

/-- The scenario named by the claim: `x` and `y` enqueued while `e0` is in flight,
then a drain with no further arrivals. -/
def fifoSchedule : List QAct :=
  [.arrive qe0, .arrive qex, .arrive qey, .complete, .dispatch, .complete,
   .dispatch, .complete]

/-! ## Retrieval (`src/search.ts`, `searchContent`)

The external services (index, embedding backend, side-text files) are
oracles; fallible steps return `Except String` carrying the JS error
message. -/

/-- A metadata filter value: a plain value or a list (JS
`value.includes(...)` inclusion filter). -/
inductive FilterVal where
  | val (v : MetaValue)
  | list (l : List MetaValue)
deriving Repr, DecidableEq

/-- One filter entry test against the metadata of a record
(`Array.isArray(value) ? value.includes(m[key]) : m[key] === value`). -/
def filterEntryMatches (m : List (String × MetaValue)) (k : String) :
    FilterVal → Bool
  | .val v => metaLookup m k == some v
  | .list l =>
    match metaLookup m k with
    | some v => l.contains v
    | none => false

/-- `Object.entries(metadataFilter).every(...)`. -/
def filterMatches (f : List (String × FilterVal))
    (m : List (String × MetaValue)) : Bool :=
  f.all (fun p => filterEntryMatches m p.1 p.2)

structure ScoredItem where
  item : VectorRecord
  score : ℚ
deriving Repr, DecidableEq

/-- `metadata[k] = v` (JS property assignment on the metadata bag). -/
def metaSet : List (String × MetaValue) → String → MetaValue →
    List (String × MetaValue)
  | [], k, v => [(k, v)]
  | (k', v') :: rest, k, v =>
    if k' = k then (k, v) :: rest else (k', v') :: metaSet rest k v

/-- `SEARCH_CONFIG` as destructured by `searchContent` (its
`metadataFilter` field is absent, so no metadata filter is applied). -/
def SEARCH_CONFIG_limit : Nat := 10
def SEARCH_CONFIG_minScore : ℚ := 6 / 10
def SEARCH_CONFIG_metadataFilter : Option (List (String × FilterVal)) := none

/-- Hydration of one surviving result: load the side text by
`documentId`, substituting `"[Text unavailable]"` when the field is
missing or the read fails. -/
def hydrateResult (readTextFile : String → Option String) (r : ScoredItem) :
    ScoredItem :=
  match metaLookup r.item.metadata "documentId" with
  | some (MetaValue.str docId) =>
    match readTextFile (docId ++ ".txt") with
    | some text =>
      { r with item := { r.item with metadata := metaSet r.item.metadata "text" (MetaValue.str text) } }
    | none =>
      { r with item := { r.item with metadata := metaSet r.item.metadata "text" (MetaValue.str "[Text unavailable]") } }
  | _ =>
    { r with item := { r.item with metadata := metaSet r.item.metadata "text" (MetaValue.str "[Text unavailable]") } }

/-- The body of the `try` block of `searchContent`. -/
def searchMain (indexExists : Bool) (createIndexRes : Except String Unit)
    (embedRes : Except String (List Int))
    (queryItems : List Int → Except String (List ScoredItem))
    (readTextFile : String → Option String) :
    Except String (List ScoredItem) := do
  let _ ← if indexExists then Except.ok () else createIndexRes
  let queryEmbedding ← embedRes
  let vectorResults ← queryItems queryEmbedding
  let filteredResults :=
    match SEARCH_CONFIG_metadataFilter with
    | some f => vectorResults.filter (fun (r : ScoredItem) => filterMatches f r.item.metadata)
    | none => vectorResults
  let filteredResults := filteredResults.filter
    (fun (r : ScoredItem) => decide (SEARCH_CONFIG_minScore ≤ r.score))
  let results := filteredResults.take SEARCH_CONFIG_limit
  pure (results.map (hydrateResult readTextFile))

/-- `searchContent` with its `catch`: an error whose message contains
`"document collection is too small"` yields an empty result list, every
other error is re-thrown. -/
def searchContent (indexExists : Bool) (createIndexRes : Except String Unit)
    (embedRes : Except String (List Int))
    (queryItems : List Int → Except String (List ScoredItem))
    (readTextFile : String → Option String) :
    Except String (List ScoredItem) :=
  match searchMain indexExists createIndexRes embedRes queryItems readTextFile with
  | .ok rs => .ok rs
  | .error msg =>
    if strContains msg "document collection is too small" then .ok []
    else .error msg

/-! ## Cache persistence (`saveCache` / `loadCache` in
the cache half of `src/lib/rateLimiter.ts`)

Files are modelled as parsed JSON values: `JSON.stringify`/`JSON.parse`
are the (correct) external runtime serializer, while the shape mapping
between `Cache` and JSON — which is what the source owns — is explicit.
The read-back verification step of `saveCache` compares the temp file
with the intended content and always passes on a faithful filesystem. -/

inductive Json where
  | null
  | bool (b : Bool)
  | num (n : Int)
  | str (s : String)
  | arr (elems : List Json)
  | obj (fields : List (String × Json))
deriving Repr

def cacheEntryToJson (e : CacheEntry) : Json :=
  .obj [("contentHash", .str e.contentHash),
        ("vectorIds", .arr (e.vectorIds.map .str)),
        ("modifiedTime", .num e.modifiedTime)]

def cacheToJson (c : Cache) : Json :=
  .obj (c.map (fun p => (p.1, cacheEntryToJson p.2)))

def jsonStrList : List Json → Option (List String)
  | [] => some []
  | .str s :: rest => (jsonStrList rest).map (fun l => s :: l)
  | _ => none

def jsonToCacheEntry : Json → Option CacheEntry
  | .obj [("contentHash", .str h), ("vectorIds", .arr ids), ("modifiedTime", .num t)] =>
    (jsonStrList ids).map (fun l => ⟨h, l, t⟩)
  | _ => none

def jsonFieldsToCache : List (String × Json) → Option Cache
  | [] => some []
  | (k, v) :: rest =>
    match jsonToCacheEntry v, jsonFieldsToCache rest with
    | some e, some c => some ((k, e) :: c)
    | _, _ => none

def jsonToCache : Json → Option Cache
  | .obj fields => jsonFieldsToCache fields
  | _ => none

/-- Filesystem for the cache files: path → parsed content. -/
def FS := String → Option Json

def fsWrite (fs : FS) (p : String) (j : Json) : FS :=
  fun q => if q = p then some j else fs q

def fsErase (fs : FS) (p : String) : FS :=
  fun q => if q = p then none else fs q

def CACHE_FILE_PATH : String := ".cache.json"

/-- `saveCache`: write `.cache.json.tmp`, verify the read-back, rotate the
previous file to `.cache.json.bak` (ENOENT ignored), rename the temp file
into place, unlink the backup (failure ignored). -/
def saveCache (cache : Cache) (fs : FS) : FS :=
  let cacheData := cacheToJson cache
  let fs := fsWrite fs (CACHE_FILE_PATH ++ ".tmp") cacheData
  let fs :=
    match fs CACHE_FILE_PATH with
    | some v => fsWrite (fsErase fs CACHE_FILE_PATH) (CACHE_FILE_PATH ++ ".bak") v
    | none => fs
  let fs :=
    match fs (CACHE_FILE_PATH ++ ".tmp") with
    | some v => fsWrite (fsErase fs (CACHE_FILE_PATH ++ ".tmp")) CACHE_FILE_PATH v
    | none => fs
  fsErase fs (CACHE_FILE_PATH ++ ".bak")

/-- `loadCache`: a missing file is an empty cache; unparseable content is
a propagated error. -/
def loadCache (fs : FS) : Except String Cache :=
  match fs CACHE_FILE_PATH with
  | none => .ok []
  | some j =>
    match jsonToCache j with
    | some c => .ok c
    | none => .error "Unexpected token in JSON"

end ObsidianLLM

namespace ObsidianLLM

/-- C5: chunking `"# A\nfoo\n## B\nbar\n# C\nbaz"` yields exactly three
chunks; the heading stack of the second chunk holds `# A` and `## B`, the
third holds only `# C` (a same-or-shallower heading pops deeper ones
before the new heading is pushed). -/
theorem chunkFile_nesting :
    chunkFile "vault/note.md" "# A\nfoo\n## B\nbar\n# C\nbaz" =
      ["note\n# A\nfoo", "note\n# A\n## B\nbar", "note\n# C\nbaz"] ∧
    headingLines "note\n# A\n## B\nbar" = ["# A", "## B"] ∧
    headingLines "note\n# C\nbaz" = ["# C"] := by
  refine ⟨?_, ?_, ?_⟩ <;> decide

end ObsidianLLM

namespace ObsidianLLM

/-! ## Helper lemmas -/

/-- The success texts of one embedding pass together with its failures are
a permutation of the input chunks. -/
theorem embedPass_perm (o : String → Option (List Int)) (l : List String) :
    ((embedPass o l).1.map EmbeddedChunk.text ++ (embedPass o l).2).Perm l := by
  induction l with
  | nil => simp [embedPass]
  | cons c cs ih =>
    cases h : o c with
    | some e =>
      simp only [embedPass, h]
      exact (ih.cons c)
    | none =>
      simp only [embedPass, h]
      exact List.perm_middle.trans (ih.cons c)

/-- With the always-failing backend the self-call recursion never
returns, at any depth. -/
theorem embedChunksFuel_failAll (x : String) :
    ∀ fuel pass, embedChunksFuel failAllOracle pass fuel [x] = none := by
  intro fuel
  induction fuel with
  | zero => intro pass; rfl
  | succ n ih =>
    intro pass
    simp only [embedChunksFuel, embedPass, failAllOracle]
    simp [ih (pass + 1)]

/-- Whenever `embedChunks` returns, the returned texts are a permutation
of the input chunks: no chunk is ever dropped. -/
theorem embedChunksFuel_perm
    (o : Nat → String → Option (List Int)) :
    ∀ fuel pass chunks r, embedChunksFuel o pass fuel chunks = some r →
      (r.map EmbeddedChunk.text).Perm chunks := by
  intro fuel
  induction fuel with
  | zero => intro pass chunks r h; exact absurd h (by simp [embedChunksFuel])
  | succ n ih =>
    intro pass chunks r h
    simp only [embedChunksFuel] at h
    by_cases hc : chunks.isEmpty
    · rw [if_pos hc] at h
      cases h
      rw [List.isEmpty_iff] at hc
      subst hc
      rfl
    · rw [if_neg hc] at h
      by_cases hf : (embedPass (o pass) chunks).2.isEmpty
      · rw [if_pos hf] at h
        cases h
        have := embedPass_perm (o pass) chunks
        rw [List.isEmpty_iff] at hf
        rw [hf, List.append_nil] at this
        exact this
      · rw [if_neg hf] at h
        cases hrec : embedChunksFuel o (pass + 1) n (embedPass (o pass) chunks).2 with
        | none => rw [hrec] at h; cases h
        | some retry =>
          rw [hrec] at h
          cases h
          have h1 := ih (pass + 1) _ _ hrec
          have h2 := embedPass_perm (o pass) chunks
          rw [List.map_append]
          exact (h1.append_left _).trans h2

end ObsidianLLM

namespace ObsidianLLM

/-- C1 counterexample: under the claim, a chunk failing both the first
pass and the one-shot batch retry is dropped, so the call returns within
two passes.  Instead, with a backend failing in passes 0 and 1 and
succeeding from pass 2 on, the recursion is still unfinished at depth 2
and at depth 3 returns the chunk embedded by a third pass — the chunk was
retried twice, not once, and never dropped; with the always-failing
backend it is still unfinished at depth 2 as well. -/
theorem embedChunks_single_retry_false :
    embedChunksFuel failTwiceOracle 0 2 ["x"] = none ∧
    embedChunksFuel failTwiceOracle 0 3 ["x"] = some [⟨[1], "x"⟩] ∧
    embedChunksFuel failAllOracle 0 2 ["x"] = none := by
  refine ⟨?_, ?_, ?_⟩ <;> decide

/-- C1 amended: `embedChunks` retries the chunks that failed a pass via a
self-call with no depth bound; the recursion returns only once a pass has
no failures, so failed chunks are never dropped (whenever the call
returns, the output texts are a permutation of the input chunks), and
when every chunk fails on every attempt the recursion never terminates
(no recursion depth suffices). -/
theorem embedChunks_unbounded_retry :
    (∀ fuel, embedChunksFuel failAllOracle 0 fuel ["x"] = none) ∧
    (∀ o fuel pass chunks r, embedChunksFuel o pass fuel chunks = some r →
      (r.map EmbeddedChunk.text).Perm chunks) :=
  ⟨fun fuel => embedChunksFuel_failAll "x" fuel 0,
   fun o fuel pass chunks r h => embedChunksFuel_perm o fuel pass chunks r h⟩

/-- C1 witness: the amended theorem evaluated at depth 5 for the
always-failing backend and at a concrete successful run. -/
theorem embedChunks_unbounded_retry_witness :
    embedChunksFuel failAllOracle 0 5 ["x"] = none ∧
    (([⟨[1], "a"⟩] : List EmbeddedChunk).map EmbeddedChunk.text).Perm ["a"] :=
  ⟨embedChunks_unbounded_retry.1 5,
   embedChunks_unbounded_retry.2 (fun _ _ => some [1]) 1 0 ["a"] [⟨[1], "a"⟩]
     (by decide)⟩

/-- C10 counterexample: chunk `b` fails the first pass (it is the sole
entry of `failedChunks`) and succeeds on retry, yet the output is
`[a, b]` — every position of the output corresponds to the same position
of the input, refuting that a retried chunk always breaks positional
alignment. -/
theorem embedChunks_misalignment_false :
    (embedPass (failBOracle 0) ["a", "b"]).2 = ["b"] ∧
    embedChunksFuel failBOracle 0 2 ["a", "b"] = some [⟨[1], "a"⟩, ⟨[2], "b"⟩] ∧
    ([(⟨[1], "a"⟩ : EmbeddedChunk), ⟨[2], "b"⟩].map EmbeddedChunk.text) = ["a", "b"] := by
  refine ⟨?_, ?_, ?_⟩ <;> decide

/-- C10 amended: the output lists the first-pass successes in input order
followed by the retry results appended at the end (first conjunct, the
recursion equation).  Positional alignment with the input therefore
breaks exactly when a failed chunk precedes a first-pass success: with
`a` failing the first pass and `b` succeeding, the output texts are
`[b, a]` and `storeChunks` pairs id `n.md::0` — chunk index 0 — with the
vector of `b`, disagreeing with document order; whereas when the failed
chunks form a suffix of the input the output stays aligned. -/
theorem embedChunks_successes_first :
    (∀ o pass fuel chunks, (embedPass (o pass) chunks).2.isEmpty = false →
      embedChunksFuel o pass (fuel + 1) chunks =
        (embedChunksFuel o (pass + 1) fuel (embedPass (o pass) chunks).2).map
          (fun retry => (embedPass (o pass) chunks).1 ++ retry)) ∧
    embedChunksFuel failAOracle 0 2 ["a", "b"] = some [⟨[2], "b"⟩, ⟨[1], "a"⟩] ∧
    ([(⟨[2], "b"⟩ : EmbeddedChunk), ⟨[1], "a"⟩].map EmbeddedChunk.text) = ["b", "a"] ∧
    (storeChunks (fun p => p) "n.md" [⟨[2], "b"⟩, ⟨[1], "a"⟩] []).1 =
      [⟨"n.md::0", [2], [("documentId", MetaValue.str "text_files/n.md__0")]⟩,
       ⟨"n.md::1", [1], [("documentId", MetaValue.str "text_files/n.md__1")]⟩] := by
  refine ⟨?_, by decide, by decide, by decide⟩
  intro o pass fuel chunks hf
  have hc : chunks.isEmpty = false := by
    cases chunks with
    | nil => simp [embedPass] at hf
    | cons c cs => rfl
  simp only [embedChunksFuel, hc, hf, Bool.false_eq_true, if_false]

/-- C10 witness: the recursion equation evaluated on a concrete failing
first pass. -/
theorem embedChunks_successes_first_witness :
    embedChunksFuel failAOracle 0 2 ["a", "b"] =
      (embedChunksFuel failAOracle 1 1 (embedPass (failAOracle 0) ["a", "b"]).2).map
        (fun retry => (embedPass (failAOracle 0) ["a", "b"]).1 ++ retry) :=
  embedChunks_successes_first.1 failAOracle 0 1 ["a", "b"] (by decide)

/-- C2 evaluation at the failing input: the cache holds path
`vault/x.md` whose sole vector record has id `vault/x.md::0` (built by
`storeChunks` itself).  Processing the unlink removes the cache entry,
but the vector store is unchanged: `deleteItem` was called with the cache
key `vault/x.md`, which matches no record id, so the record whose id
prefix-matches the path survives. -/
theorem deleteFile_leaves_prefix_vectors :
    (storeChunks (fun p => p) "vault/x.md" [⟨[1], "t"⟩] []).1 =
      [⟨"vault/x.md::0", [1], [("documentId", MetaValue.str "text_files/x.md__0")]⟩] ∧
    strStartsWith "vault/x.md::0" "vault/x.md" = true ∧
    (deleteFile "vault/x.md"
      [("vault/x.md", ⟨"h", ["vault/x.md::0"], 5⟩)]
      [⟨"vault/x.md::0", [1], [("documentId", MetaValue.str "text_files/x.md__0")]⟩]).1
      = [] ∧
    (deleteFile "vault/x.md"
      [("vault/x.md", ⟨"h", ["vault/x.md::0"], 5⟩)]
      [⟨"vault/x.md::0", [1], [("documentId", MetaValue.str "text_files/x.md__0")]⟩]).2
      = [⟨"vault/x.md::0", [1], [("documentId", MetaValue.str "text_files/x.md__0")]⟩] := by
  refine ⟨?_, ?_, ?_, ?_⟩ <;> decide

end ObsidianLLM

namespace ObsidianLLM

/-- Deleting ids from a store never adds records. -/
theorem mem_foldl_deleteItem :
    ∀ (ids : List String) (store : List VectorRecord) (r : VectorRecord),
      r ∈ ids.foldl deleteItem store → r ∈ store := by
  intro ids
  induction ids with
  | nil => intro store r h; exact h
  | cons i rest ih =>
    intro store r h
    have := ih (deleteItem store i) r h
    exact (List.mem_filter.1 this).1

/-- Every record in the store after the insertion loop either predates the
loop or carries the single-field `documentId` metadata derived from its
own id. -/
theorem mem_storeChunksInsert (rel : String → String) (fp : String) :
    ∀ (chunks : List EmbeddedChunk) (index : Nat) (store : List VectorRecord)
      (r : VectorRecord),
      r ∈ (storeChunksInsert rel fp chunks index store).1 →
      r ∈ store ∨
        r.metadata =
          [("documentId", MetaValue.str ("text_files/" ++ normalizePathForStorage r.id))] := by
  intro chunks
  induction chunks with
  | nil => intro index store r h; exact Or.inl h
  | cons chunk rest ih =>
    intro index store r h
    simp only [storeChunksInsert] at h
    rcases ih (index + 1) _ r h with hmem | hmeta
    · cases hg : getItem store (rel fp ++ "::" ++ natToStr index) with
      | some v =>
        rw [hg] at hmem
        rcases List.mem_append.1 hmem with hx | hv
        · exact Or.inl (List.mem_filter.1 hx).1
        · rcases List.mem_singleton.1 hv with rfl
          exact Or.inr rfl
      | none =>
        rw [hg] at hmem
        rcases List.mem_append.1 hmem with hx | hv
        · exact Or.inl hx
        · rcases List.mem_singleton.1 hv with rfl
          exact Or.inr rfl
    · exact Or.inr hmeta

/-- C9: every record inserted by `storeChunks` (i.e. present afterwards
but not before) has metadata consisting of exactly the one field
`documentId` holding the sanitized text-file path; `filePath`, `heading`,
`chunkIndex` and `modifiedTime` are absent, a metadata filter on any key
other than `documentId` matches no such record, and orphan cleanup, seeing
no `modifiedTime`, never deletes such a record. -/
theorem storeChunks_metadata_only_documentId :
    ∀ (rel : String → String) (fp : String) (chunks : List EmbeddedChunk)
      (store : List VectorRecord) (r : VectorRecord),
      r ∈ (storeChunks rel fp chunks store).1 → r ∉ store →
      r.metadata =
        [("documentId", MetaValue.str ("text_files/" ++ normalizePathForStorage r.id))] ∧
      metaLookup r.metadata "filePath" = none ∧
      metaLookup r.metadata "heading" = none ∧
      metaLookup r.metadata "chunkIndex" = none ∧
      metaLookup r.metadata "modifiedTime" = none ∧
      (∀ (k : String) (fv : FilterVal), k ≠ "documentId" →
        filterEntryMatches r.metadata k fv = false) ∧
      (∀ (cacheIds : List String) (fileExists : String → Bool) (now : Int),
        cleanupDecision cacheIds fileExists now r = false) := by
  intro rel fp chunks store r hmem hnot
  have hmeta : r.metadata =
      [("documentId", MetaValue.str ("text_files/" ++ normalizePathForStorage r.id))] := by
    simp only [storeChunks] at hmem
    rcases mem_storeChunksInsert rel fp chunks 0 _ r hmem with hold | hnew
    · exact absurd (mem_foldl_deleteItem _ store r hold) hnot
    · exact hnew
  have hlk : ∀ k : String, k ≠ "documentId" → metaLookup r.metadata k = none := by
    intro k hk
    rw [hmeta]
    simp only [metaLookup, List.find?]
    rw [show (("documentId" : String) == k) = false from
      beq_eq_false_iff_ne.2 (fun h => hk h.symm)]
    rfl
  refine ⟨hmeta, hlk _ (by decide), hlk _ (by decide), hlk _ (by decide),
    hlk _ (by decide), ?_, ?_⟩
  · intro k fv hk
    have := hlk k hk
    cases fv with
    | val v => simp [filterEntryMatches, this]
    | list l => simp [filterEntryMatches, this]
  · intro cacheIds fileExists now
    by_cases h1 : cacheIds.contains r.id = true
    · simp only [cleanupDecision]
      rw [if_pos h1]
    · simp only [cleanupDecision]
      rw [if_neg h1]
      by_cases h2 : fileExists (ownerPath r.id) = true
      · rw [if_pos h2]
      · rw [if_neg h2]
        simp only [hlk "modifiedTime" (by decide), sub_self]
        rw [if_pos]
        decide

/-- C9 witness: the theorem evaluated on the record produced by a
concrete `storeChunks` run. -/
theorem storeChunks_metadata_only_documentId_witness :
    (⟨"n.md::0", [2], [("documentId", MetaValue.str "text_files/n.md__0")]⟩ :
        VectorRecord).metadata =
      [("documentId", MetaValue.str
        ("text_files/" ++ normalizePathForStorage "n.md::0"))] ∧
    metaLookup [("documentId", MetaValue.str "text_files/n.md__0")] "filePath" = none ∧
    metaLookup [("documentId", MetaValue.str "text_files/n.md__0")] "heading" = none ∧
    metaLookup [("documentId", MetaValue.str "text_files/n.md__0")] "chunkIndex" = none ∧
    metaLookup [("documentId", MetaValue.str "text_files/n.md__0")] "modifiedTime" = none ∧
    (∀ (k : String) (fv : FilterVal), k ≠ "documentId" →
      filterEntryMatches [("documentId", MetaValue.str "text_files/n.md__0")] k fv = false) ∧
    (∀ (cacheIds : List String) (fileExists : String → Bool) (now : Int),
      cleanupDecision cacheIds fileExists now
        ⟨"n.md::0", [2], [("documentId", MetaValue.str "text_files/n.md__0")]⟩ = false) :=
  storeChunks_metadata_only_documentId (fun p => p) "n.md" [⟨[2], "b"⟩] []
    ⟨"n.md::0", [2], [("documentId", MetaValue.str "text_files/n.md__0")]⟩
    (by decide) (by decide)

end ObsidianLLM

namespace ObsidianLLM

/-- C6: orphan cleanup never deletes a record whose id appears in the
change cache; a record not in the cache is kept whenever the file named
by the id part before `::` exists on disk; otherwise it is deleted if and
only if its age (`now` minus the metadata `modifiedTime`) meets or
exceeds the one-day threshold, and retained when younger. -/
theorem cleanup_orphan_two_sided :
    ∀ (cacheIds : List String) (fileExists : String → Bool) (now t : Int)
      (v : VectorRecord) (store : List VectorRecord), v ∈ store →
      ((cacheIds.contains v.id = true →
         v ∈ cleanupOrphanedVectors cacheIds fileExists now store) ∧
       (cacheIds.contains v.id = false → fileExists (ownerPath v.id) = true →
         v ∈ cleanupOrphanedVectors cacheIds fileExists now store) ∧
       (cacheIds.contains v.id = false → fileExists (ownerPath v.id) = false →
         metaLookup v.metadata "modifiedTime" = some (MetaValue.num t) →
         (v ∉ cleanupOrphanedVectors cacheIds fileExists now store ↔
           maxOrphanedAge ≤ now - t))) := by
  intro cacheIds fileExists now t v store hv
  refine ⟨?_, ?_, ?_⟩
  · intro h1
    have hdec : cleanupDecision cacheIds fileExists now v = false := by
      simp only [cleanupDecision]
      rw [if_pos h1]
    simp [cleanupOrphanedVectors, List.mem_filter, hv, hdec]
  · intro h1 h2
    have hdec : cleanupDecision cacheIds fileExists now v = false := by
      simp only [cleanupDecision]
      rw [if_neg (by rw [h1]; exact Bool.false_ne_true), if_pos h2]
    simp [cleanupOrphanedVectors, List.mem_filter, hv, hdec]
  · intro h1 h2 hmt
    have hdec : cleanupDecision cacheIds fileExists now v =
        (if now - t < maxOrphanedAge then false else true) := by
      simp only [cleanupDecision]
      rw [if_neg (by rw [h1]; exact Bool.false_ne_true),
        if_neg (by rw [h2]; exact Bool.false_ne_true)]
      simp only [hmt]
    constructor
    · intro hnot
      by_contra hlt
      rw [not_le] at hlt
      rw [if_pos hlt] at hdec
      exact hnot (List.mem_filter.2 ⟨hv, by rw [hdec]; rfl⟩)
    · intro hge hmem
      rw [if_neg (not_lt.2 hge)] at hdec
      have := (List.mem_filter.1 hmem).2
      rw [hdec] at this
      exact absurd this (by decide)

/-- C6 witness: a record absent from the cache, with a missing file and
age exactly one day, is deleted; the same record with age zero is
retained. -/
theorem cleanup_orphan_two_sided_witness :
    (⟨"a.md::0", [], [("modifiedTime", MetaValue.num 0)]⟩ : VectorRecord) ∉
      cleanupOrphanedVectors [] (fun _ => false) 86400000
        [⟨"a.md::0", [], [("modifiedTime", MetaValue.num 0)]⟩] ∧
    (⟨"a.md::0", [], [("modifiedTime", MetaValue.num 0)]⟩ : VectorRecord) ∈
      cleanupOrphanedVectors [] (fun _ => false) 0
        [⟨"a.md::0", [], [("modifiedTime", MetaValue.num 0)]⟩] :=
  ⟨((cleanup_orphan_two_sided [] (fun _ => false) 86400000 0
      ⟨"a.md::0", [], [("modifiedTime", MetaValue.num 0)]⟩
      [⟨"a.md::0", [], [("modifiedTime", MetaValue.num 0)]⟩]
      (by decide)).2.2 (by decide) (by decide) (by decide)).mpr (by decide),
   by
    have hiff := ((cleanup_orphan_two_sided [] (fun _ => false) 0 0
      ⟨"a.md::0", [], [("modifiedTime", MetaValue.num 0)]⟩
      [⟨"a.md::0", [], [("modifiedTime", MetaValue.num 0)]⟩]
      (by decide)).2.2 (by decide) (by decide) (by decide))
    exact not_not.1 (fun hnot => absurd (hiff.mp hnot) (by decide))⟩

end ObsidianLLM

namespace ObsidianLLM

/-- Updating a key and reading it back yields the new entry. -/
theorem cacheLookup_cacheSet_self :
    ∀ (c : Cache) (k : String) (v : CacheEntry),
      cacheLookup (cacheSet c k v) k = some v := by
  intro c k v
  induction c with
  | nil => simp [cacheSet, cacheLookup]
  | cons p rest ih =>
    obtain ⟨k', v'⟩ := p
    by_cases h : k' = k
    · simp [cacheSet, h, cacheLookup]
    · simp only [cacheSet, if_neg h, cacheLookup, List.find?]
      rw [show (k' == k) = false from beq_eq_false_iff_ne.2 h]
      exact ih

/-- Updating a key leaves every other key unchanged. -/
theorem cacheLookup_cacheSet_ne :
    ∀ (c : Cache) (k p : String) (v : CacheEntry), p ≠ k →
      cacheLookup (cacheSet c k v) p = cacheLookup c p := by
  intro c k p v hp
  induction c with
  | nil =>
    simp only [cacheSet, cacheLookup, List.find?]
    rw [show (k == p) = false from beq_eq_false_iff_ne.2 (fun h => hp h.symm)]
  | cons q rest ih =>
    obtain ⟨k', v'⟩ := q
    by_cases h : k' = k
    · subst h
      simp only [cacheSet, if_pos rfl, cacheLookup, List.find?]
      rw [show (k' == p) = false from beq_eq_false_iff_ne.2 (fun h => hp h.symm)]
    · by_cases h2 : k' = p
      · subst h2
        simp [cacheSet, if_neg h, cacheLookup, List.find?]
      · simp only [cacheSet, if_neg h, cacheLookup, List.find?]
        rw [show (k' == p) = false from beq_eq_false_iff_ne.2 h2]
        exact ih

/-- C3: when the cached hash equals the hash of the current content, an
add event is a no-op if the cached modification time also matches (zero
embedding calls, zero store mutations, cache untouched and not saved);
and when only the modification time differs, exactly the `modifiedTime`
field of that path is updated and persisted, every other cache entry and
the vector store unchanged, with zero embedding calls. -/
theorem processFile_skip_and_touch :
    ∀ (hash : String → String) (embedder : List String → List EmbeddedChunk)
      (rel : String → String) (filePath : String) (mtime : Int)
      (content : String) (cache : Cache) (store : List VectorRecord)
      (cf : CacheEntry),
      cacheLookup cache filePath = some cf →
      cf.contentHash = hash content →
      ((cf.modifiedTime = mtime →
         processFile hash embedder rel filePath mtime content cache store =
           ⟨0, 0, cache, false, store⟩) ∧
       (cf.modifiedTime ≠ mtime →
         processFile hash embedder rel filePath mtime content cache store =
           ⟨0, 0, cacheSet cache filePath { cf with modifiedTime := mtime },
             true, store⟩ ∧
         cacheLookup (cacheSet cache filePath { cf with modifiedTime := mtime })
           filePath = some ⟨cf.contentHash, cf.vectorIds, mtime⟩ ∧
         (∀ p, p ≠ filePath →
           cacheLookup (cacheSet cache filePath { cf with modifiedTime := mtime }) p =
             cacheLookup cache p))) := by
  intro hash embedder rel filePath mtime content cache store cf hlook hhash
  constructor
  · intro hmt
    simp only [processFile, hlook]
    rw [if_pos ⟨hmt, hhash⟩]
  · intro hmt
    refine ⟨?_, ?_, ?_⟩
    · simp only [processFile, hlook]
      rw [if_neg (fun hand => hmt hand.1), if_pos hhash]
    · exact cacheLookup_cacheSet_self cache filePath { cf with modifiedTime := mtime }
    · intro p hp
      exact cacheLookup_cacheSet_ne cache filePath p _ hp

/-- C3 witness: both branches evaluated on a concrete cache. -/
theorem processFile_skip_and_touch_witness :
    processFile (fun _ => "h") (fun _ => []) (fun p => p) "f.md" 3 "c"
      [("f.md", ⟨"h", ["f.md::0"], 3⟩)] [] =
      ⟨0, 0, [("f.md", ⟨"h", ["f.md::0"], 3⟩)], false, []⟩ ∧
    processFile (fun _ => "h") (fun _ => []) (fun p => p) "f.md" 9 "c"
      [("f.md", ⟨"h", ["f.md::0"], 3⟩)] [] =
      ⟨0, 0, [("f.md", ⟨"h", ["f.md::0"], 9⟩)], true, []⟩ :=
  ⟨(processFile_skip_and_touch (fun _ => "h") (fun _ => []) (fun p => p) "f.md" 3 "c"
      [("f.md", ⟨"h", ["f.md::0"], 3⟩)] [] ⟨"h", ["f.md::0"], 3⟩
      (by decide) rfl).1 rfl,
   (((processFile_skip_and_touch (fun _ => "h") (fun _ => []) (fun p => p) "f.md" 9 "c"
      [("f.md", ⟨"h", ["f.md::0"], 3⟩)] [] ⟨"h", ["f.md::0"], 3⟩
      (by decide) rfl).2 (by decide)).1).trans (by decide)⟩

end ObsidianLLM

namespace ObsidianLLM

/-- C7: when the nearest-neighbor query fails, `searchContent` returns
the empty result list if the error message signals an underfull document
collection, and re-throws the error unchanged otherwise. -/
theorem searchContent_underfull_index :
    ∀ (queryItems : List Int → Except String (List ScoredItem))
      (readTextFile : String → Option String) (emb : List Int) (msg : String),
      queryItems emb = .error msg →
      searchMain true (.ok ()) (.ok emb) queryItems readTextFile = .error msg ∧
      (strContains msg "document collection is too small" = true →
        searchContent true (.ok ()) (.ok emb) queryItems readTextFile = .ok []) ∧
      (strContains msg "document collection is too small" = false →
        searchContent true (.ok ()) (.ok emb) queryItems readTextFile = .error msg) := by
  intro queryItems readTextFile emb msg hq
  have hmain : searchMain true (.ok ()) (.ok emb) queryItems readTextFile = .error msg := by
    simp [searchMain, hq, Bind.bind, Except.bind]
  refine ⟨hmain, ?_, ?_⟩
  · intro hc
    simp [searchContent, hmain, hc]
  · intro hc
    simp [searchContent, hmain, hc]

/-- C7 witness: a concrete underfull-index error yields the empty result,
and a concrete unrelated error propagates. -/
theorem searchContent_underfull_index_witness :
    searchContent true (.ok ()) (.ok [])
      (fun _ => .error "Query failed: document collection is too small to query")
      (fun _ => none) = .ok [] ∧
    searchContent true (.ok ()) (.ok [])
      (fun _ => .error "ENOSPC") (fun _ => none) = .error "ENOSPC" :=
  ⟨(searchContent_underfull_index
      (fun _ => .error "Query failed: document collection is too small to query")
      (fun _ => none) [] "Query failed: document collection is too small to query"
      rfl).2.1 (by decide),
   (searchContent_underfull_index (fun _ => .error "ENOSPC") (fun _ => none) []
      "ENOSPC" rfl).2.2 (by decide)⟩

end ObsidianLLM

namespace ObsidianLLM

theorem jsonStrList_map_str : ∀ l : List String, jsonStrList (l.map Json.str) = some l := by
  intro l
  induction l with
  | nil => rfl
  | cons s rest ih => simp [jsonStrList, ih]

theorem jsonToCacheEntry_toJson (e : CacheEntry) :
    jsonToCacheEntry (cacheEntryToJson e) = some e := by
  obtain ⟨h, ids, t⟩ := e
  simp [cacheEntryToJson, jsonToCacheEntry, jsonStrList_map_str]

theorem jsonToCache_toJson (c : Cache) : jsonToCache (cacheToJson c) = some c := by
  simp only [cacheToJson, jsonToCache]
  induction c with
  | nil => rfl
  | cons p rest ih => simp [jsonFieldsToCache, jsonToCacheEntry_toJson, ih]

/-- After a save, the cache file holds exactly the serialized cache. -/
theorem saveCache_read (cache : Cache) (fs : FS) :
    saveCache cache fs CACHE_FILE_PATH = some (cacheToJson cache) := by
  simp only [saveCache, CACHE_FILE_PATH]
  cases h : fs ".cache.json" with
  | some v => simp [fsWrite, fsErase, h]
  | none => simp [fsWrite, fsErase, h]

/-- C8: a successful `saveCache` followed by `loadCache` yields a cache
equal to the one saved, for every cache value and every starting
filesystem state. -/
theorem saveCache_loadCache_roundtrip :
    ∀ (cache : Cache) (fs : FS), loadCache (saveCache cache fs) = .ok cache := by
  intro cache fs
  simp [loadCache, saveCache_read cache fs, jsonToCache_toJson]

/-- C8 witness: the round trip evaluated on a concrete cache and the
empty filesystem. -/
theorem saveCache_loadCache_roundtrip_witness :
    loadCache (saveCache [("vault/a.md", ⟨"h", ["vault/a.md::0"], 7⟩)] (fun _ => none)) =
      .ok [("vault/a.md", ⟨"h", ["vault/a.md::0"], 7⟩)] :=
  saveCache_loadCache_roundtrip [("vault/a.md", ⟨"h", ["vault/a.md::0"], 7⟩)] (fun _ => none)

end ObsidianLLM

namespace ObsidianLLM

/-- Under a quiet schedule the pipeline order is preserved: the started
log followed by the pending handoff and queue always equals the prior
pipeline plus the new arrivals, and at most one handoff is ever pending
(with the flag clear). -/
theorem qrun_quiet_eq :
    ∀ (acts : List QAct) (s : QueueState),
      (s.handoff ≠ [] → s.running = none ∧ s.handoff.length = 1) →
      quietActs s acts = true →
      ((qrun s acts).started ++ (qrun s acts).handoff ++ (qrun s acts).queue =
        s.started ++ s.handoff ++ s.queue ++ arrivalsOf acts) ∧
      ((qrun s acts).handoff ≠ [] →
        (qrun s acts).running = none ∧ (qrun s acts).handoff.length = 1) := by
  intro acts
  induction acts with
  | nil => intro s hinv _; exact ⟨by simp [qrun, arrivalsOf], hinv⟩
  | cons a rest ih =>
    intro s hinv hq
    simp only [quietActs, Bool.and_eq_true] at hq
    obtain ⟨hok, hrest⟩ := hq
    have hstep : ((qstep s a).started ++ (qstep s a).handoff ++ (qstep s a).queue =
        s.started ++ s.handoff ++ s.queue ++ arrivalsOf [a]) ∧
        ((qstep s a).handoff ≠ [] →
          (qstep s a).running = none ∧ (qstep s a).handoff.length = 1) := by
      cases a with
      | arrive e =>
        simp only [Bool.or_eq_true, Bool.and_eq_true] at hok
        cases hr : s.running with
        | some r =>
          have hh : s.handoff = [] := by
            by_contra hne
            have := (hinv hne).1
            rw [hr] at this
            cases this
          simp [qstep, handleArrival, hr, hh, arrivalsOf]
        | none =>
          rcases hok with hok | ⟨hh, hqe⟩
          · rw [hr] at hok; cases hok
          · rw [List.isEmpty_iff] at hh hqe
            simp [qstep, handleArrival, hr, hh, hqe, arrivalsOf]
      | complete =>
        cases hr : s.running with
        | none =>
          have hq : qstep s QAct.complete = s := by simp [qstep, hr]
          rw [hq]
          exact ⟨by simp [arrivalsOf], hinv⟩
        | some r =>
          have hh : s.handoff = [] := by
            by_contra hne
            have := (hinv hne).1
            rw [hr] at this
            cases this
          cases hqe : s.queue with
          | nil => simp [qstep, hr, hqe, hh, arrivalsOf]
          | cons next restq => simp [qstep, hr, hqe, hh, arrivalsOf]
      | dispatch =>
        cases hh : s.handoff with
        | nil => simp [qstep, hh, arrivalsOf]
        | cons e hs =>
          have hi := hinv (by rw [hh]; exact List.cons_ne_nil e hs)
          have hs0 : hs = [] := by
            have := hi.2
            rw [hh] at this
            simpa using this
          have hr := hi.1
          subst hs0
          simp [qstep, hh, handleArrival, hr, arrivalsOf]
    have hmain := ih (qstep s a) hstep.2 hrest
    refine ⟨?_, hmain.2⟩
    have hq1 : qrun s (a :: rest) = qrun (qstep s a) rest := rfl
    rw [hq1, hmain.1, hstep.1]
    cases a with
    | arrive e => simp [arrivalsOf]
    | complete => simp [arrivalsOf]
    | dispatch => simp [arrivalsOf]

/-- C4 counterexample: `x` is enqueued while `e0` is in flight and `z`
later while `y` is in flight, so the claim requires `x` to be processed
before `z`; but `y` arrived inside the handoff window after the
completion of `e0` (busy flag already cleared, `setImmediate` re-dispatch
pending), jumped the queue, and the dequeued `x` was re-appended behind
`z` — the run processes `z` strictly before `x`. -/
theorem queue_fifo_counterexample :
    (qrun qinit [QAct.arrive qe0]).running = some qe0 ∧
    (qrun qinit [QAct.arrive qe0, QAct.arrive qex]).queue = [qex] ∧
    (qrun qinit [QAct.arrive qe0, QAct.arrive qex, QAct.complete,
      QAct.arrive qey]).running = some qey ∧
    (qrun qinit [QAct.arrive qe0, QAct.arrive qex, QAct.complete,
      QAct.arrive qey, QAct.arrive qez]).queue = [qez] ∧
    (qrun qinit racySchedule).started = [qe0, qey, qez, qex] ∧
    (qrun qinit racySchedule).done = [qe0, qey, qez, qex] := by
  refine ⟨?_, ?_, ?_, ?_, ?_, ?_⟩ <;> decide

/-- C4 amended: an event arriving while one is in flight is appended to
the in-memory queue with the durable queue rewritten on enqueue and does
not start processing (single-flight); for every schedule in which no
event arrives inside a dequeue handoff window, the events are processed
strictly in arrival (FIFO) order; and in the scenario named by the claim
— `x` then `y` enqueued while `e0` is in flight, then a drain — `x` is
fully processed before `y` starts. -/
theorem queue_single_flight_quiet_fifo :
    (∀ (s : QueueState) (e : QEntry), s.running.isSome = true →
      qstep s (QAct.arrive e) =
        { s with queue := s.queue ++ [e], disk := s.queue ++ [e] }) ∧
    (∀ acts, quietActs qinit acts = true →
      (qrun qinit acts).started ++ (qrun qinit acts).handoff ++
        (qrun qinit acts).queue = arrivalsOf acts) ∧
    ((qrun qinit (fifoSchedule.take 6)).done = [qe0, qex] ∧
     (qrun qinit (fifoSchedule.take 6)).started = [qe0, qex] ∧
     (qrun qinit fifoSchedule).started = [qe0, qex, qey] ∧
     (qrun qinit fifoSchedule).done = [qe0, qex, qey]) := by
  refine ⟨?_, ?_, ?_⟩
  · intro s e hr
    simp [qstep, handleArrival, hr]
  · intro acts hq
    have h := qrun_quiet_eq acts qinit (fun h => absurd rfl h) hq
    simpa [qinit] using h.1
  · refine ⟨?_, ?_, ?_, ?_⟩ <;> decide

/-- C4 witness: the enqueue equation applied while `e0` is in flight, and
the FIFO equation applied to the drain schedule of the claim. -/
theorem queue_single_flight_quiet_fifo_witness :
    qstep (qrun qinit [QAct.arrive qe0]) (QAct.arrive qex) =
      { qrun qinit [QAct.arrive qe0] with
          queue := (qrun qinit [QAct.arrive qe0]).queue ++ [qex],
          disk := (qrun qinit [QAct.arrive qe0]).queue ++ [qex] } ∧
    (qrun qinit fifoSchedule).started ++ (qrun qinit fifoSchedule).handoff ++
      (qrun qinit fifoSchedule).queue = arrivalsOf fifoSchedule :=
  ⟨queue_single_flight_quiet_fifo.1 (qrun qinit [QAct.arrive qe0]) qex (by decide),
   queue_single_flight_quiet_fifo.2.1 fifoSchedule (by decide)⟩

end ObsidianLLM
